import Mathlib

/-!
Verification development for the zooduck/simple-server repository.

The core under study is `src/src/simpleServer.module.js` (class `SimpleServer`):
its path normalizer (`#normalizePath`, line 255), route table (`#routes`,
`addRoute`, lines 89/133), MIME resolver (`#MIME_TYPES` lines 71-83 and
lines 303-304), 404-page setup in `start()` (lines 152-165) and the request
dispatcher (`#requestListener`, lines 265-317).

The server runs Node's POSIX path library, so the embedding first models the
relevant parts of Node's `path.posix` (`normalize`, `join`, `extname`) as
executable functions on `List Char`, and then builds the server logic on top.
Strings are unbundled to their character lists (`String.data`) so that every
algorithm is ordinary structural recursion.
-/

namespace SimpleServerSpec

/-- A path segment: the characters between two `/` separators. -/
abbrev Seg := List Char

/-- The two-character segment `..`, treated specially by Node's normalizer. -/
def dotdot : Seg := ['.', '.']

/-- Split a character list on a separator character. Mirrors how Node's
`normalizeString` walks the path splitting it at `/`. Always returns a
non-empty list of segments; separators at the ends yield empty segments. -/
def splitOnChar (sep : Char) : List Char → List Seg
  | [] => [[]]
  | c :: cs =>
    match splitOnChar sep cs with
    | [] => [[c]]
    | s :: ss => if c = sep then [] :: s :: ss else (c :: s) :: ss

/-- Join segments with `/` separators (inverse of `splitOnChar '/'` on
slash-free segments). -/
def joinSegs : List Seg → List Char
  | [] => []
  | [s] => s
  | s :: ss => s ++ '/' :: joinSegs ss

/-- One step of Node's `normalizeString` segment resolution, acting on the
stack of already-resolved segments (stored reversed: head = most recent).
Empty and `.` segments are dropped; `..` pops the previous segment, or is
kept when the path is relative (`allowAboveRoot`) and there is nothing left
to pop. -/
def stepSeg (allowAboveRoot : Bool) (stack : List Seg) (seg : Seg) : List Seg :=
  if seg = [] ∨ seg = ['.'] then stack
  else if seg = dotdot then
    match stack with
    | [] => if allowAboveRoot then [dotdot] else []
    | top :: rest =>
      if top = dotdot then (if allowAboveRoot then dotdot :: top :: rest else top :: rest)
      else rest
  else seg :: stack

/-- Node `normalizeString(path, allowAboveRoot, '/', ...)`: resolve `.` and
`..` segments, returning the resolved segment list in order. -/
def normSegs (allowAboveRoot : Bool) (segs : List Seg) : List Seg :=
  (segs.foldl (stepSeg allowAboveRoot) []).reverse

/-- Whether a character list ends with `/` (Node checks the final char code). -/
def lastIsSlash (l : List Char) : Bool := l.getLast? = some '/'

/-- Whether a path is absolute: its first char code is `/`. -/
def headIsSlash (l : List Char) : Bool := l.head? = some '/'

/-- Node `path.posix.normalize` on a character list:
empty input gives `.`; otherwise resolve segments (keeping `..` only for
relative paths), then re-attach one leading `/` when the input was absolute
and one trailing `/` when the input had one, with the documented fallbacks
(`/`, `./`, `.`) when everything cancels. -/
def normalizeL (p : List Char) : List Char :=
  if p = [] then ['.']
  else if joinSegs (normSegs (!headIsSlash p) (splitOnChar '/' p)) = [] then
    if headIsSlash p then ['/'] else if lastIsSlash p then ['.', '/'] else ['.']
  else
    (if headIsSlash p then ['/'] else [])
      ++ joinSegs (normSegs (!headIsSlash p) (splitOnChar '/' p))
      ++ (if lastIsSlash p then ['/'] else [])

/-- Strip one leading `/` or `\` if present (first half of the regex
replacement `/^[/\\]|[/\\]$/g` in `#normalizePath`, source line 256). -/
def stripSep1 : List Char → List Char
  | [] => []
  | c :: cs => if c = '/' ∨ c = '\\' then cs else c :: cs

/-- The regex replacement `/^[/\\]|[/\\]$/g`: remove at most one leading and
at most one trailing path separator (`/` or `\`). -/
def stripSepsL (l : List Char) : List Char :=
  (stripSep1 (stripSep1 l).reverse).reverse

/-- Node `path.posix.join` on character lists: drop empty arguments, join the
rest with `/`, and normalize; all-empty input gives `.`. -/
def joinL (parts : List (List Char)) : List Char :=
  match parts.filter (fun l => l ≠ []) with
  | [] => ['.']
  | ps => normalizeL (joinSegs ps)

/-- Node `path.posix.extname` on a character list: the extension of the
basename (the part after the last `/`, ignoring trailing slashes), i.e. the
suffix from the basename's last `.`; empty when the basename has no dot,
when its only dot is its first character, or when it is exactly `..`. -/
def extnameL (p : List Char) : List Char :=
  let baseRev := (p.reverse.dropWhile (fun c => c = '/')).takeWhile (fun c => c ≠ '/')
  let parts := splitOnChar '.' baseRev.reverse
  match parts with
  | [] => []
  | [_] => []
  | [[], _] => []
  | [[], [], []] => []
  | _ => '.' :: parts.getLastD []

/-! ### String-level wrappers -/

/-- `path.normalize` at `String` level. -/
def pathNormalize (p : String) : String := ⟨normalizeL p.data⟩

/-- `path.join` at `String` level. -/
def joinPaths (parts : List String) : String := ⟨joinL (parts.map String.data)⟩

/-- `path.extname` at `String` level. -/
def extname (p : String) : String := ⟨extnameL p.data⟩

/-- `SimpleServer.#normalizePath` (source lines 255-257):
`path.normalize(pathToNormalize).replace(/^[/\\]|[/\\]$/g, '')`. -/
def normalizePath (p : String) : String := ⟨stripSepsL (normalizeL p.data)⟩

/-- `String.prototype.toLowerCase` restricted to ASCII (all MIME-table keys
are ASCII). -/
def toLowerStr (s : String) : String := ⟨s.data.map Char.toLower⟩

/-! ### JS `Map` as an insertion-ordered association list -/

/-- JS `Map.prototype.set`: update the value in place when the key exists,
otherwise append a new entry. -/
def mapSet {α : Type} : List (String × α) → String → α → List (String × α)
  | [], k, v => [(k, v)]
  | (k', v') :: rest, k, v =>
    if k' = k then (k, v) :: rest else (k', v') :: mapSet rest k v

/-- JS `Map.prototype.get` (`undefined` on a miss becomes `none`). -/
def mapGet {α : Type} : List (String × α) → String → Option α
  | [], _ => none
  | (k', v') :: rest, k => if k' = k then some v' else mapGet rest k

/-! ### The server model

The pieces of `SimpleServer` the claims are about, with source lines noted
on each definition. Handlers are polymorphic in the type `G` of the shared
globals object (`#globals`), which the dispatcher passes through untouched.
-/

/-- An incoming request, reduced to the fields the dispatcher reads:
`request.url` (the request target, possibly carrying a query or fragment)
and `request.method` (never consulted by the dispatcher itself). -/
structure Request where
  url : String
  method : String
deriving DecidableEq, Repr

/-- A route handler: receives the request and the shared globals, and
produces a body string or a falsy rejection (`none` for `null`/`undefined`,
`some ""` for the empty string). -/
abbrev Handler (G : Type) := Request → G → Option String

/-- The `#routes` private field: a JS `Map` from normalized path to handler. -/
abbrev RouteTable (G : Type) := List (String × Handler G)

/-- JS truthiness test applied to a handler result (`if (!result)`,
source line 273): `null`/`undefined` and the empty string are falsy. -/
def jsFalsy : Option String → Bool
  | none => true
  | some s => s = ""

/-- An entry of the modeled filesystem: a readable file with its content, or
a path on which `fs.open` fails with a non-`ENOENT` error code (for example
`EACCES`). A path absent from the filesystem fails to open with `ENOENT`. -/
inductive FileEntry where
  | file (content : String)
  | denied (errorCode : String)
deriving DecidableEq, Repr

/-- The filesystem visible to the server, as a path-to-entry map. -/
abbrev Fs := List (String × FileEntry)

/-- Whether `fs.open(p, 'r')` succeeds (the dispatcher's existence probe,
source lines 289-299, sets `fileExists` exactly when `fs.open` resolves). -/
def openOk (fs : Fs) (p : String) : Bool :=
  match mapGet fs p with
  | some (.file _) => true
  | _ => false

/-- The error code with which `fs.open(p, 'r')` rejects, `none` on success. -/
def openErrCode (fs : Fs) (p : String) : Option String :=
  match mapGet fs p with
  | some (.file _) => none
  | some (.denied c) => some c
  | none => some "ENOENT"

/-- The bytes streamed from path `p` (source lines 306-316 stream the file at
`streamPath` into the response). Reading a non-file yields no bytes. -/
def readContent (fs : Fs) (p : String) : String :=
  match mapGet fs p with
  | some (.file c) => c
  | _ => ""

/-- `SimpleServer.#MIME_TYPES` (source lines 71-83), as the association list
of the object literal's own entries. -/
def MIME_TYPES : List (String × String) :=
  [("default", "application/octet-stream"),
   ("html", "text/html"),
   ("css", "text/css"),
   ("js", "text/javascript"),
   ("mjs", "text/javascript"),
   ("json", "application/json"),
   ("png", "image/png"),
   ("jpg", "image/jpg"),
   ("gif", "image/gif"),
   ("svg", "image/svg+xml"),
   ("ico", "image/x-icon")]

/-- The own property names of `Object.prototype`. `#MIME_TYPES` is an object
literal, so the bracket access on line 304 also sees these inherited
members when the key misses the literal's own entries. -/
def OBJECT_PROTOTYPE_MEMBERS : List String :=
  ["constructor", "__defineGetter__", "__defineSetter__", "hasOwnProperty",
   "__lookupGetter__", "__lookupSetter__", "isPrototypeOf", "propertyIsEnumerable",
   "toString", "valueOf", "__proto__", "toLocaleString"]

/-- Whether a key names an inherited `Object.prototype` member. -/
def objectPrototypeMember (key : String) : Bool :=
  OBJECT_PROTOTYPE_MEMBERS.contains key

/-- The value line 304 feeds to `response.setHeader('Content-type', ...)`:
either a string (an own table entry, or the `default` fallback), or a
non-string value inherited from `Object.prototype` (a function, or the
prototype object for `__proto__`) — truthy, so it short-circuits the `||`
and is passed to `setHeader` instead of the default. -/
inductive MimeValue where
  | str (s : String)
  | inherited (key : String)
deriving DecidableEq, Repr

/-- `this.constructor.#MIME_TYPES[fileExtension] || this.constructor.#MIME_TYPES.default`
(source line 304). The bracket access is a full JS property lookup: an own
entry of the literal returns its string; a key naming an `Object.prototype`
member (for example `constructor` or `__proto__`) returns that inherited
truthy value, so the `||` fallback does not fire; only a genuine miss of
the whole prototype chain is `undefined` (falsy) and falls back to the
`default` own entry `application/octet-stream`. -/
def mimeResolve (fileExtension : String) : MimeValue :=
  match mapGet MIME_TYPES fileExtension with
  | some s => .str s
  | none =>
    if objectPrototypeMember fileExtension then .inherited fileExtension
    else .str "application/octet-stream"

/-- `path.extname(streamPath).substring(1).toLowerCase()` (source line 303). -/
def fileExtensionOf (streamPath : String) : String :=
  toLowerStr ((extname streamPath).drop 1)

/-- `#getPathnameFromRequest` (source lines 246-248):
`new URL(request.url, base).pathname`. For an origin-form request target the
pathname is the part of the target before the first `?` (query) or `#`
(fragment); the WHATWG parser's further canonicalizations do not depend on
the query or fragment and are not needed by the claims, so they are not
modeled. -/
def urlPathname (u : String) : String :=
  ⟨u.data.takeWhile (fun c => c ≠ '?' ∧ c ≠ '#')⟩

/-- `#getPathnameFromRequest` applied to a request. -/
def getPathnameFromRequest (request : Request) : String := urlPathname request.url

/-- The route-table consultation of the dispatcher (source line 270):
`this.#routes.get(this.#normalizePath(url))` where `url` is the request's
pathname (line 266). -/
def routeLookup {G : Type} (routes : RouteTable G) (requestUrl : String) : Option (Handler G) :=
  mapGet routes (normalizePath (urlPathname requestUrl))

/-- `addRoute` (source lines 133-135):
`this.#routes.set(this.#normalizePath(path.join('api', route)), callback)`. -/
def addRoute {G : Type} (routes : RouteTable G) (route : String) (callback : Handler G) :
    RouteTable G :=
  mapSet routes (normalizePath (joinPaths ["api", route])) callback

/-- Outcome of the file-server branch before streaming (source lines
284-304): HTTP status, path of the file to stream, and MIME type. -/
structure StaticResolution where
  statusCode : Nat
  streamPath : String
  mimeType : MimeValue
deriving DecidableEq, Repr

/-- The file-server branch of `#requestListener` (source lines 284-304):
pick `staticPath/url/index.html` for a directory-style URL and
`staticPath/url` otherwise, probe it with `fs.open`, and fall back to
`staticPath/404.html` with status 404 when the probe fails (for any error). -/
def staticStage (staticPath : String) (fs : Fs) (url : String) : StaticResolution :=
  let filePath :=
    if lastIsSlash url.data then joinPaths [staticPath, url, "index.html"]
    else joinPaths [staticPath, url]
  let fileExists := openOk fs filePath
  let statusCode := if fileExists then 200 else 404
  let streamPath := if fileExists then filePath else joinPaths [staticPath, "404.html"]
  { statusCode := statusCode
    streamPath := streamPath
    mimeType := mimeResolve (fileExtensionOf streamPath) }

/-- The response written back for one request: status code, the value
passed to `setHeader('Content-type', ...)` if the header was set, and the
body bytes. -/
structure Response where
  statusCode : Nat
  contentType : Option MimeValue
  body : String
deriving DecidableEq, Repr

/-- The JSON body written for a rejected API call (source lines 275-277):
`JSON.stringify({ error: '400 Bad Request' })`. -/
def badRequestBody : String := "\x7b\"error\":\"400 Bad Request\"\x7d"

/-- `#requestListener` (source lines 265-317): extract the pathname, try the
route table first; on a hit await the handler and answer 400 (fixed JSON
body) for a falsy result or 200 with the result string otherwise; on a miss
run the file-server branch and stream the resolved file with its computed
status and `Content-type`. -/
def requestListener {G : Type} (staticPath : String) (routes : RouteTable G) (globals : G)
    (fs : Fs) (request : Request) : Response :=
  let url := getPathnameFromRequest request
  match mapGet routes (normalizePath url) with
  | some route =>
    let result := route request globals
    if jsFalsy result then
      { statusCode := 400, contentType := none, body := badRequestBody }
    else
      { statusCode := 200, contentType := none, body := result.getD "" }
  | none =>
    let resolved := staticStage staticPath fs url
    { statusCode := resolved.statusCode
      contentType := some resolved.mimeType
      body := readContent fs resolved.streamPath }

/-- The default 404 page written by `start()` (source lines 156-164): the
template literal after `.trim()`. -/
def default404Page : String :=
  "<!DOCTYPE html>\n<html lang=\"en\">\n  <head>\n    <title>404 Not Found</title>\n  </head>\n  <body>404 Not Found</body>\n</html>"

/-- The 404-page setup step of `start()` (source lines 152-165): probe
`staticPath/404.html` with `fs.open`; when the probe fails (for any reason)
write the default page there, otherwise leave the filesystem unchanged. -/
def ensure404 (staticPath : String) (fs : Fs) : Fs :=
  if openOk fs (joinPaths [staticPath, "404.html"]) then fs
  else mapSet fs (joinPaths [staticPath, "404.html"]) (.file default404Page)

/-! ### File-handle lifecycle of one dispatch

The existence probe (source lines 289-299) opens `filePath` inside a
`try`/`finally` whose `finally` runs `filehandle?.close()`, so a probe
handle is closed exactly when one was opened. The streaming handle (source
lines 306-311) is opened with `fs.open(streamPath)` and wrapped in
`createReadStream({ autoClose: false })`; the only close call is the
listener registered on the stream's `end` event. With `autoClose: false`
Node does not close the descriptor on a stream error, so the handle's fate
depends on how the stream terminates.
-/

/-- How the read stream piping the response terminates: a normal `end`
event, or an `error`/teardown without `end`. -/
inductive StreamTermination where
  | ended
  | errored
deriving DecidableEq, Repr

/-- Open/close events on the file handles of one static-branch dispatch. -/
inductive FdEvent where
  | probeOpen
  | probeClose
  | streamOpen
  | streamClose
deriving DecidableEq, Repr

/-- Handle events of the existence probe: the `finally` block closes the
handle whenever `fs.open` succeeded; a failed open produces no handle. -/
def probeTrace (openSucceeded : Bool) : List FdEvent :=
  if openSucceeded then [.probeOpen, .probeClose] else []

/-- Handle events of the streaming phase: the handle is opened, and closed
only by the `end`-event listener (`autoClose: false` suppresses Node's
close-on-error). -/
def streamTrace : StreamTermination → List FdEvent
  | .ended => [.streamOpen, .streamClose]
  | .errored => [.streamOpen]

/-- All handle events of one static-branch dispatch, in order. -/
def requestFdTrace (probeOpenSucceeded : Bool) (t : StreamTermination) : List FdEvent :=
  probeTrace probeOpenSucceeded ++ streamTrace t

/-- The probe handle is balanced in a trace: as many probe closes as opens. -/
def probeBalanced (tr : List FdEvent) : Bool :=
  tr.count .probeClose == tr.count .probeOpen

/-- Every handle opened in the trace was closed. -/
def allHandlesClosed (tr : List FdEvent) : Bool :=
  (tr.count .probeClose == tr.count .probeOpen)
    && (tr.count .streamClose == tr.count .streamOpen)

/-! ### Map lemmas -/

theorem mapGet_mapSet_self {α : Type} (m : List (String × α)) (k : String) (v : α) :
    mapGet (mapSet m k v) k = some v := by
  induction m with
  | nil => simp [mapSet, mapGet]
  | cons e rest ih =>
    obtain ⟨k', v'⟩ := e
    by_cases h : k' = k
    · subst h; simp [mapSet, mapGet]
    · simp [mapSet, mapGet, h, ih]

theorem mapGet_mapSet_ne {α : Type} (m : List (String × α)) (k k' : String) (v : α)
    (h : k ≠ k') : mapGet (mapSet m k v) k' = mapGet m k' := by
  induction m with
  | nil => simp [mapSet, mapGet, h]
  | cons e rest ih =>
    obtain ⟨k₀, v₀⟩ := e
    by_cases h₀ : k₀ = k
    · subst h₀; simp [mapSet, mapGet, h]
    · simp [mapSet, mapGet, h₀, ih]

theorem mapSet_mapSet_self {α : Type} (m : List (String × α)) (k : String) (v₁ v₂ : α) :
    mapSet (mapSet m k v₁) k v₂ = mapSet m k v₂ := by
  induction m with
  | nil => simp [mapSet]
  | cons e rest ih =>
    obtain ⟨k₀, v₀⟩ := e
    by_cases h₀ : k₀ = k
    · subst h₀; simp [mapSet]
    · simp [mapSet, h₀, ih]

/-! ### `splitOnChar` lemmas -/

theorem splitOnChar_ne_nil (sep : Char) (l : List Char) : splitOnChar sep l ≠ [] := by
  cases l with
  | nil => simp [splitOnChar]
  | cons c cs =>
    simp only [splitOnChar]
    cases splitOnChar sep cs with
    | nil => simp
    | cons s ss =>
      by_cases h : c = sep <;> simp [h]

theorem splitOnChar_cons_sep (sep : Char) (l : List Char) :
    splitOnChar sep (sep :: l) = [] :: splitOnChar sep l := by
  simp only [splitOnChar]
  cases hs : splitOnChar sep l with
  | nil => exact absurd hs (splitOnChar_ne_nil sep l)
  | cons s ss => simp

theorem splitOnChar_cons_ne (sep c : Char) (l : List Char) (h : c ≠ sep) :
    splitOnChar sep (c :: l) =
      (c :: (splitOnChar sep l).headD []) :: (splitOnChar sep l).tail := by
  simp only [splitOnChar]
  cases hs : splitOnChar sep l with
  | nil => exact absurd hs (splitOnChar_ne_nil sep l)
  | cons s ss => simp [h]

theorem splitOnChar_append_noSep (sep : Char) (l₁ l₂ : List Char)
    (h : ∀ c ∈ l₁, c ≠ sep) :
    splitOnChar sep (l₁ ++ l₂) =
      (l₁ ++ (splitOnChar sep l₂).headD []) :: (splitOnChar sep l₂).tail := by
  induction l₁ with
  | nil =>
    simp only [List.nil_append]
    cases hs : splitOnChar sep l₂ with
    | nil => exact absurd hs (splitOnChar_ne_nil sep l₂)
    | cons s ss => simp
  | cons c cs ih =>
    have hc : c ≠ sep := h c (by simp)
    rw [List.cons_append, splitOnChar_cons_ne sep c (cs ++ l₂) hc,
      ih (fun x hx => h x (by simp [hx]))]
    simp

theorem splitOnChar_noSep (sep : Char) (l : List Char) (h : ∀ c ∈ l, c ≠ sep) :
    splitOnChar sep l = [l] := by
  have := splitOnChar_append_noSep sep l [] h
  simpa [splitOnChar] using this

theorem mem_splitOnChar_not_sep (sep : Char) (l : List Char) (s : Seg)
    (hs : s ∈ splitOnChar sep l) : sep ∉ s := by
  induction l generalizing s with
  | nil =>
    simp only [splitOnChar, List.mem_singleton] at hs
    subst hs; simp
  | cons c cs ih =>
    cases hrec : splitOnChar sep cs with
    | nil => exact absurd hrec (splitOnChar_ne_nil sep cs)
    | cons t ts =>
      by_cases hc : c = sep
      · subst hc
        rw [splitOnChar_cons_sep, hrec] at hs
        rcases List.mem_cons.mp hs with h1 | h1
        · subst h1; simp
        · exact ih s (hrec ▸ h1)
      · rw [splitOnChar_cons_ne sep c cs hc, hrec] at hs
        rcases List.mem_cons.mp hs with h1 | h1
        · subst h1
          intro hmem
          rcases List.mem_cons.mp hmem with h2 | h2
          · exact hc h2.symm
          · exact ih t (hrec ▸ List.mem_cons_self t ts) h2
        · exact ih s (hrec ▸ List.mem_cons_of_mem t h1)

theorem mem_splitOnChar_subset (sep : Char) (l : List Char) (s : Seg)
    (hs : s ∈ splitOnChar sep l) : ∀ c ∈ s, c ∈ l := by
  induction l generalizing s with
  | nil =>
    simp only [splitOnChar, List.mem_singleton] at hs
    subst hs; simp
  | cons c cs ih =>
    cases hrec : splitOnChar sep cs with
    | nil => exact absurd hrec (splitOnChar_ne_nil sep cs)
    | cons t ts =>
      by_cases hc : c = sep
      · subst hc
        rw [splitOnChar_cons_sep, hrec] at hs
        intro x hx
        rcases List.mem_cons.mp hs with h1 | h1
        · subst h1; simp at hx
        · exact List.mem_cons_of_mem _ (ih s (hrec ▸ h1) x hx)
      · rw [splitOnChar_cons_ne sep c cs hc, hrec] at hs
        intro x hx
        rcases List.mem_cons.mp hs with h1 | h1
        · subst h1
          rcases List.mem_cons.mp hx with h2 | h2
          · simp [h2]
          · exact List.mem_cons_of_mem _
              (ih t (hrec ▸ List.mem_cons_self t ts) x (by simpa [hrec] using h2))
        · exact List.mem_cons_of_mem _ (ih s (hrec ▸ List.mem_cons_of_mem t h1) x hx)

theorem splitOnChar_joinSegs (ss : List Seg) (hne : ss ≠ [])
    (hs : ∀ s ∈ ss, '/' ∉ s) : splitOnChar '/' (joinSegs ss) = ss := by
  induction ss with
  | nil => exact absurd rfl hne
  | cons s ts ih =>
    cases ts with
    | nil =>
      simp only [joinSegs]
      exact splitOnChar_noSep '/' s (fun c hc he => hs s (by simp) (he ▸ hc))
    | cons t ts' =>
      have hjoin : joinSegs (s :: t :: ts') = s ++ '/' :: joinSegs (t :: ts') := rfl
      rw [hjoin, splitOnChar_append_noSep '/' s _ (fun c hc he => hs s (by simp) (he ▸ hc)),
        splitOnChar_cons_sep, ih (by simp) (fun x hx => hs x (by simp [hx]))]
      simp

/-! ### Invariants of the segment-resolution stack

The stack built by `stepSeg` (stored reversed) always consists of a block of
ordinary segments on top of a block of `..` segments, and every ordinary
segment on it is a non-trivial segment of the input. -/

/-- The shape invariant of the resolution stack: ordinary segments (drawn
from `pool`, neither empty nor `.`) on top of a run of `..` segments. -/
def GoodStack (pool : List Seg) (stack : List Seg) : Prop :=
  ∃ rest k, stack = rest ++ List.replicate k dotdot ∧ dotdot ∉ rest ∧
    ∀ s ∈ rest, s ≠ [] ∧ s ≠ ['.'] ∧ s ∈ pool

theorem goodStack_nil (pool : List Seg) : GoodStack pool [] :=
  ⟨[], 0, by simp, by simp, by simp⟩

theorem stepSeg_good (aar : Bool) (pool : List Seg) (stack : List Seg) (seg : Seg)
    (hstack : GoodStack pool stack) (hseg : seg ∈ pool) :
    GoodStack pool (stepSeg aar stack seg) := by
  obtain ⟨rest, k, hshape, hnodot, hmem⟩ := hstack
  by_cases htriv : seg = [] ∨ seg = ['.']
  · simpa [stepSeg, htriv] using ⟨rest, k, hshape, hnodot, hmem⟩
  by_cases hdd : seg = dotdot
  · subst hdd
    rw [hshape]
    cases rest with
    | nil =>
      cases k with
      | zero =>
        simp only [List.replicate, List.nil_append, stepSeg, htriv, if_false, if_pos rfl]
        cases aar with
        | false => exact ⟨[], 0, by simp, by simp, by simp⟩
        | true => exact ⟨[], 1, by simp, by simp, by simp⟩
      | succ k' =>
        have hcons : ([] : List Seg) ++ List.replicate (k' + 1) dotdot
            = dotdot :: List.replicate k' dotdot := by simp [List.replicate]
        rw [hcons]
        simp only [stepSeg, htriv, if_false, if_pos rfl, if_pos rfl]
        cases aar with
        | false =>
          exact ⟨[], k' + 1, by simp [List.replicate], by simp, by simp⟩
        | true =>
          exact ⟨[], k' + 2, by simp [List.replicate], by simp, by simp⟩
    | cons r rest' =>
      have hr : r ≠ dotdot := fun h => hnodot (h ▸ List.mem_cons_self r rest')
      simp only [List.cons_append, stepSeg, htriv, if_false, if_pos rfl, if_neg hr]
      exact ⟨rest', k, rfl, fun h => hnodot (List.mem_cons_of_mem r h),
        fun s hs => hmem s (List.mem_cons_of_mem r hs)⟩
  · push_neg at htriv
    simp only [stepSeg, htriv, hdd, if_neg, if_false]
    refine ⟨seg :: rest, k, by rw [hshape]; rfl, ?_, ?_⟩
    · intro h
      rcases List.mem_cons.mp h with h1 | h1
      · exact hdd h1.symm
      · exact hnodot h1
    · intro s hs
      rcases List.mem_cons.mp hs with h1 | h1
      · exact h1 ▸ ⟨htriv.1, htriv.2, hseg⟩
      · exact hmem s h1

theorem foldl_stepSeg_good (aar : Bool) (pool : List Seg) (segs : List Seg)
    (stack : List Seg) (hstack : GoodStack pool stack) (hsegs : ∀ s ∈ segs, s ∈ pool) :
    GoodStack pool (segs.foldl (stepSeg aar) stack) := by
  induction segs generalizing stack with
  | nil => simpa using hstack
  | cons s ss ih =>
    rw [List.foldl_cons]
    exact ih (stepSeg aar stack s) (stepSeg_good aar pool stack s hstack (hsegs s (by simp)))
      (fun x hx => hsegs x (by simp [hx]))

/-! ### The normalizer fixes canonical segment lists -/

theorem stepSeg_dotdot_replicate (j : Nat) :
    stepSeg true (List.replicate j dotdot) dotdot = List.replicate (j + 1) dotdot := by
  cases j with
  | zero => simp [stepSeg, dotdot, List.replicate]
  | succ j' => simp [stepSeg, dotdot, List.replicate]

theorem foldl_stepSeg_replicate (k j : Nat) :
    (List.replicate k dotdot).foldl (stepSeg true) (List.replicate j dotdot)
      = List.replicate (j + k) dotdot := by
  induction k generalizing j with
  | zero => simp
  | succ k' ih =>
    rw [List.replicate_succ, List.foldl_cons, stepSeg_dotdot_replicate j, ih (j + 1)]
    congr 1
    omega

theorem foldl_stepSeg_pushAll (aar : Bool) (l : List Seg)
    (hl : ∀ s ∈ l, s ≠ [] ∧ s ≠ ['.'] ∧ s ≠ dotdot) (stack : List Seg) :
    l.foldl (stepSeg aar) stack = l.reverse ++ stack := by
  induction l generalizing stack with
  | nil => simp
  | cons s ss ih =>
    obtain ⟨h1, h2, h3⟩ := hl s (by simp)
    have hstep : stepSeg aar stack s = s :: stack := by
      simp [stepSeg, h1, h2, h3]
    rw [List.foldl_cons, hstep, ih (fun x hx => hl x (by simp [hx]))]
    simp

theorem normSegs_canonical (k : Nat) (tail : List Seg)
    (htail : ∀ s ∈ tail, s ≠ [] ∧ s ≠ ['.'] ∧ s ≠ dotdot) :
    normSegs true (List.replicate k dotdot ++ tail) = List.replicate k dotdot ++ tail := by
  unfold normSegs
  rw [List.foldl_append]
  have h1 : (List.replicate k dotdot).foldl (stepSeg true) [] = List.replicate k dotdot := by
    have := foldl_stepSeg_replicate k 0
    simpa [List.replicate] using this
  rw [h1, foldl_stepSeg_pushAll true tail htail (List.replicate k dotdot)]
  simp [List.reverse_replicate]

/-! ### End characters of joined segment lists -/

theorem getLast?_cons_of_ne_nil {α : Type} (a : α) (l : List α) (h : l ≠ []) :
    (a :: l).getLast? = l.getLast? := by
  cases l with
  | nil => exact absurd rfl h
  | cons b t => simp [List.getLast?_cons_cons]

theorem joinSegs_head? (s : Seg) (ss : List Seg) (h : s ≠ []) :
    (joinSegs (s :: ss)).head? = s.head? := by
  cases ss with
  | nil => rfl
  | cons t ts => exact List.head?_append_of_ne_nil _ h

theorem joinSegs_getLast? (ss : List Seg) (L : Seg) (hL : ss.getLast? = some L)
    (hLne : L ≠ []) : (joinSegs ss).getLast? = L.getLast? := by
  induction ss with
  | nil => simp at hL
  | cons s ts ih =>
    cases ts with
    | nil =>
      simp only [List.getLast?_singleton, Option.some_inj] at hL
      subst hL; rfl
    | cons t ts' =>
      rw [List.getLast?_cons_cons] at hL
      have hrec := ih hL
      have hjoin : joinSegs (s :: t :: ts') = s ++ '/' :: joinSegs (t :: ts') := rfl
      have hne2 : joinSegs (t :: ts') ≠ [] := by
        intro he
        rw [he] at hrec
        obtain ⟨c, hc⟩ := Option.isSome_iff_exists.mp (List.getLast?_isSome.mpr hLne)
        rw [hc] at hrec
        simp at hrec
      rw [hjoin, List.getLast?_append_of_ne_nil _ (by simp),
        getLast?_cons_of_ne_nil _ _ hne2, hrec]

/-! ### The separator-stripping regex -/

theorem stripSep1_cons_slash (l : List Char) : stripSep1 ('/' :: l) = l := by
  simp [stripSep1]

theorem stripSep1_keep (l : List Char)
    (h : ∀ c, l.head? = some c → c ≠ '/' ∧ c ≠ '\\') : stripSep1 l = l := by
  cases l with
  | nil => rfl
  | cons c cs =>
    have := h c rfl
    simp [stripSep1, this.1, this.2]

theorem stripSepsL_decorate (body : List Char) (a t : Bool) (hne : body ≠ [])
    (hh : ∀ c, body.head? = some c → c ≠ '/' ∧ c ≠ '\\')
    (hl : ∀ c, body.getLast? = some c → c ≠ '/' ∧ c ≠ '\\') :
    stripSepsL ((if a then ['/'] else []) ++ body ++ (if t then ['/'] else [])) = body := by
  unfold stripSepsL
  have step1 : stripSep1 ((if a then ['/'] else []) ++ body ++ (if t then ['/'] else []))
      = body ++ (if t then ['/'] else []) := by
    cases a with
    | true =>
      have h1 : ((if (true : Bool) = true then ['/'] else []) ++ body
          ++ (if t = true then ['/'] else []))
          = '/' :: (body ++ (if t = true then ['/'] else [])) := by simp
      rw [h1, stripSep1_cons_slash]
    | false =>
      have h1 : ((if (false : Bool) = true then ['/'] else []) ++ body
          ++ (if t = true then ['/'] else []))
          = body ++ (if t = true then ['/'] else []) := by simp
      rw [h1]
      refine stripSep1_keep _ (fun c hc => ?_)
      rw [List.head?_append_of_ne_nil _ hne] at hc
      exact hh c hc
  rw [step1]
  have step2 : stripSep1 ((body ++ (if t then ['/'] else [])).reverse) = body.reverse := by
    cases t with
    | true =>
      have : (body ++ if true = true then ['/'] else []).reverse = '/' :: body.reverse := by
        simp
      rw [this, stripSep1_cons_slash]
    | false =>
      have : (body ++ if false = true then ['/'] else []).reverse = body.reverse := by simp
      rw [this]
      refine stripSep1_keep _ (fun c hc => ?_)
      rw [List.head?_reverse] at hc
      exact hl c hc
  rw [step2, List.reverse_reverse]

theorem mem_of_head?_eq {α : Type} (l : List α) (a : α) (h : l.head? = some a) : a ∈ l := by
  cases l with
  | nil => simp at h
  | cons b t =>
    simp only [List.head?_cons, Option.some_inj] at h
    simp [h]

theorem mem_of_getLast?_eq {α : Type} (l : List α) (a : α) (h : l.getLast? = some a) :
    a ∈ l := by
  induction l with
  | nil => simp at h
  | cons b t ih =>
    cases t with
    | nil =>
      simp only [List.getLast?_singleton, Option.some_inj] at h
      simp [h]
    | cons c t' =>
      rw [List.getLast?_cons_cons] at h
      exact List.mem_cons_of_mem b (ih h)

theorem headIsSlash_false_iff (l : List Char) :
    headIsSlash l = false ↔ l.head? ≠ some '/' := by simp [headIsSlash]

theorem lastIsSlash_false_iff (l : List Char) :
    lastIsSlash l = false ↔ l.getLast? ≠ some '/' := by simp [lastIsSlash]

/-! ### Idempotence of `#normalizePath` away from its degenerate inputs -/

theorem normalizeL_strip_idem (d : List Char) (hbs : '\\' ∉ d)
    (hne : stripSepsL (normalizeL d) ≠ []) :
    stripSepsL (normalizeL (stripSepsL (normalizeL d))) = stripSepsL (normalizeL d) := by
  by_cases hd : d = []
  · subst hd; decide
  obtain ⟨rest, k, hshape, hnodot, hmem⟩ :=
    foldl_stepSeg_good (!headIsSlash d) (splitOnChar '/' d) (splitOnChar '/' d) []
      (goodStack_nil _) (fun s hs => hs)
  have hcanon : normSegs (!headIsSlash d) (splitOnChar '/' d)
      = List.replicate k dotdot ++ rest.reverse := by
    unfold normSegs
    rw [hshape]
    simp [List.reverse_replicate]
  have htail : ∀ s ∈ rest.reverse, s ≠ [] ∧ s ≠ ['.'] ∧ s ≠ dotdot := by
    intro s hs
    rw [List.mem_reverse] at hs
    obtain ⟨h1, h2, _⟩ := hmem s hs
    exact ⟨h1, h2, fun h => hnodot (h ▸ hs)⟩
  have hprops : ∀ s ∈ normSegs (!headIsSlash d) (splitOnChar '/' d),
      s ≠ [] ∧ '/' ∉ s ∧ '\\' ∉ s := by
    intro s hs
    rw [hcanon] at hs
    rcases List.mem_append.mp hs with h | h
    · have hdd : s = dotdot := List.eq_of_mem_replicate h
      subst hdd
      exact ⟨by decide, by decide, by decide⟩
    · rw [List.mem_reverse] at h
      obtain ⟨h1, _, h3⟩ := hmem s h
      exact ⟨h1, mem_splitOnChar_not_sep '/' d s h3,
        fun hc => hbs (mem_splitOnChar_subset '/' d s h3 _ hc)⟩
  by_cases hb : joinSegs (normSegs (!headIsSlash d) (splitOnChar '/' d)) = []
  · have hnorm : normalizeL d =
        if headIsSlash d then ['/'] else if lastIsSlash d then ['.', '/'] else ['.'] := by
      unfold normalizeL
      rw [if_neg hd, if_pos hb]
    cases hH : headIsSlash d with
    | true =>
      rw [hnorm, hH] at hne
      simp only [if_pos rfl] at hne
      exact absurd (by decide : stripSepsL ['/'] = ([] : List Char)) hne
    | false =>
      cases hT : lastIsSlash d with
      | true =>
        rw [hnorm, hH, hT]
        decide
      | false =>
        rw [hnorm, hH, hT]
        decide
  · have hcanon_ne : normSegs (!headIsSlash d) (splitOnChar '/' d) ≠ [] := by
      intro h
      exact hb (by rw [h]; rfl)
    have hnorm : normalizeL d =
        (if headIsSlash d then ['/'] else [])
          ++ joinSegs (normSegs (!headIsSlash d) (splitOnChar '/' d))
          ++ (if lastIsSlash d then ['/'] else []) := by
      unfold normalizeL
      rw [if_neg hd, if_neg hb]
    obtain ⟨c₀, cr, hc0⟩ : ∃ c₀ cr, normSegs (!headIsSlash d) (splitOnChar '/' d) = c₀ :: cr := by
      cases hx : normSegs (!headIsSlash d) (splitOnChar '/' d) with
      | nil => exact absurd hx hcanon_ne
      | cons a b => exact ⟨a, b, rfl⟩
    have hc0props := hprops c₀ (by rw [hc0]; simp)
    have hhead : (joinSegs (normSegs (!headIsSlash d) (splitOnChar '/' d))).head?
        = c₀.head? := by
      rw [hc0]
      exact joinSegs_head? c₀ cr hc0props.1
    have hh : ∀ c, (joinSegs (normSegs (!headIsSlash d) (splitOnChar '/' d))).head? = some c
        → c ≠ '/' ∧ c ≠ '\\' := by
      intro c hc
      rw [hhead] at hc
      have hcmem : c ∈ c₀ := mem_of_head?_eq c₀ c hc
      exact ⟨fun h => hc0props.2.1 (h ▸ hcmem), fun h => hc0props.2.2 (h ▸ hcmem)⟩
    obtain ⟨cL, hcL⟩ : ∃ cL, (normSegs (!headIsSlash d) (splitOnChar '/' d)).getLast?
        = some cL :=
      Option.isSome_iff_exists.mp (List.getLast?_isSome.mpr hcanon_ne)
    have hcLprops := hprops cL (mem_of_getLast?_eq _ cL hcL)
    have hlast : (joinSegs (normSegs (!headIsSlash d) (splitOnChar '/' d))).getLast?
        = cL.getLast? :=
      joinSegs_getLast? _ cL hcL hcLprops.1
    have hl : ∀ c, (joinSegs (normSegs (!headIsSlash d) (splitOnChar '/' d))).getLast? = some c
        → c ≠ '/' ∧ c ≠ '\\' := by
      intro c hc
      rw [hlast] at hc
      have hcmem : c ∈ cL := mem_of_getLast?_eq cL c hc
      exact ⟨fun h => hcLprops.2.1 (h ▸ hcmem), fun h => hcLprops.2.2 (h ▸ hcmem)⟩
    have hq : stripSepsL (normalizeL d)
        = joinSegs (normSegs (!headIsSlash d) (splitOnChar '/' d)) := by
      rw [hnorm]
      exact stripSepsL_decorate _ (headIsSlash d) (lastIsSlash d) hb hh hl
    rw [hq]
    have hbodyH : headIsSlash (joinSegs (normSegs (!headIsSlash d) (splitOnChar '/' d)))
        = false := by
      rw [headIsSlash_false_iff]
      intro h
      exact (hh '/' h).1 rfl
    have hbodyT : lastIsSlash (joinSegs (normSegs (!headIsSlash d) (splitOnChar '/' d)))
        = false := by
      rw [lastIsSlash_false_iff]
      intro h
      exact (hl '/' h).1 rfl
    have hsplit : splitOnChar '/' (joinSegs (normSegs (!headIsSlash d) (splitOnChar '/' d)))
        = normSegs (!headIsSlash d) (splitOnChar '/' d) :=
      splitOnChar_joinSegs _ hcanon_ne (fun s hs => (hprops s hs).2.1)
    have hfix : normSegs true (normSegs (!headIsSlash d) (splitOnChar '/' d))
        = normSegs (!headIsSlash d) (splitOnChar '/' d) := by
      rw [hcanon]
      exact normSegs_canonical k rest.reverse htail
    have hnormB : normalizeL (joinSegs (normSegs (!headIsSlash d) (splitOnChar '/' d)))
        = joinSegs (normSegs (!headIsSlash d) (splitOnChar '/' d)) := by
      unfold normalizeL
      rw [if_neg hb, hbodyH, hbodyT]
      simp only [Bool.not_false, if_false]
      rw [hsplit, hfix, if_neg hb]
      simp
    rw [hnormB]
    have := stripSepsL_decorate _ false false hb hh hl
    simpa using this

/-! ### Route keys for a plain route core

For a route core `c` that is a single ordinary segment (non-empty, not `.`
or `..`, free of separators), registering any of `c`, `/c`, `c/`, `/c/`
produces the same table key `api/c`, which is also the normalization of the
request pathname `/api/c`. -/

theorem stepSeg_push (aar : Bool) (stack : List Seg) (s : Seg) (h1 : s ≠ [])
    (h2 : s ≠ ['.']) (h3 : s ≠ dotdot) : stepSeg aar stack s = s :: stack := by
  simp [stepSeg, h1, h2, h3]

theorem stepSeg_nilseg (aar : Bool) (stack : List Seg) : stepSeg aar stack [] = stack := by
  simp [stepSeg]

theorem normSegs_api_core (c : Seg) (lead trail : Bool) (h1 : c ≠ []) (h2 : c ≠ ['.'])
    (h3 : c ≠ dotdot) (h4 : '/' ∉ c) :
    normSegs true (['a', 'p', 'i'] :: splitOnChar '/'
      ((if lead then ['/'] else []) ++ c ++ (if trail then ['/'] else [])))
      = [['a', 'p', 'i'], c] := by
  have hsplitc : splitOnChar '/' c = [c] :=
    splitOnChar_noSep '/' c (fun x hx he => h4 (he ▸ hx))
  have hsplitc1 : splitOnChar '/' (c ++ ['/']) = [c, []] := by
    rw [splitOnChar_append_noSep '/' c ['/'] (fun x hx he => h4 (he ▸ hx)),
      splitOnChar_cons_sep]
    simp [splitOnChar]
  have hpush : ∀ stack, stepSeg true stack c = c :: stack :=
    fun stack => stepSeg_push true stack c h1 h2 h3
  have hpushApi : ∀ stack, stepSeg true stack ['a', 'p', 'i'] = ['a', 'p', 'i'] :: stack :=
    fun stack => stepSeg_push true stack ['a', 'p', 'i'] (by decide) (by decide) (by decide)
  cases lead with
  | false =>
    cases trail with
    | false =>
      have hveq : ((if (false : Bool) = true then ['/'] else []) ++ c
          ++ (if (false : Bool) = true then ['/'] else [])) = c := by simp
      rw [hveq, hsplitc]
      simp [normSegs, stepSeg_nilseg, hpush, hpushApi]
    | true =>
      have hveq : ((if (false : Bool) = true then ['/'] else []) ++ c
          ++ (if (true : Bool) = true then ['/'] else [])) = c ++ ['/'] := by simp
      rw [hveq, hsplitc1]
      simp [normSegs, stepSeg_nilseg, hpush, hpushApi]
  | true =>
    cases trail with
    | false =>
      have hveq : ((if (true : Bool) = true then ['/'] else []) ++ c
          ++ (if (false : Bool) = true then ['/'] else [])) = '/' :: c := by simp
      rw [hveq, splitOnChar_cons_sep, hsplitc]
      simp [normSegs, stepSeg_nilseg, hpush, hpushApi]
    | true =>
      have hveq : ((if (true : Bool) = true then ['/'] else []) ++ c
          ++ (if (true : Bool) = true then ['/'] else [])) = '/' :: (c ++ ['/']) := by simp
      rw [hveq, splitOnChar_cons_sep, hsplitc1]
      simp [normSegs, stepSeg_nilseg, hpush, hpushApi]

theorem strip_normalize_api_body (c : Seg) (t : Bool) (h1 : c ≠ []) (h2 : c ≠ ['.'])
    (h3 : c ≠ dotdot) (h4 : '/' ∉ c) (h5 : '\\' ∉ c) :
    stripSepsL (normalizeL ((['a', 'p', 'i'] ++ '/' :: c) ++ (if t then ['/'] else [])))
      = 'a' :: 'p' :: 'i' :: '/' :: c := by
  have hcch : ∀ x ∈ c, x ≠ '/' ∧ x ≠ '\\' :=
    fun x hx => ⟨fun he => h4 (he ▸ hx), fun he => h5 (he ▸ hx)⟩
  have hsplitc : splitOnChar '/' c = [c] :=
    splitOnChar_noSep '/' c (fun x hx he => h4 (he ▸ hx))
  have hsplitc1 : splitOnChar '/' (c ++ ['/']) = [c, []] := by
    rw [splitOnChar_append_noSep '/' c ['/'] (fun x hx he => h4 (he ▸ hx)),
      splitOnChar_cons_sep]
    simp [splitOnChar]
  have hpushApi : ∀ stack, stepSeg true stack ['a', 'p', 'i'] = ['a', 'p', 'i'] :: stack :=
    fun stack => stepSeg_push true stack ['a', 'p', 'i'] (by decide) (by decide) (by decide)
  have hpush : ∀ stack, stepSeg true stack c = c :: stack :=
    fun stack => stepSeg_push true stack c h1 h2 h3
  have hbne : (['a', 'p', 'i'] ++ '/' :: c) ≠ [] := by simp
  have hh : ∀ x, (['a', 'p', 'i'] ++ '/' :: c).head? = some x → x ≠ '/' ∧ x ≠ '\\' := by
    intro x hx
    rw [List.head?_append_of_ne_nil _ (by decide)] at hx
    simp only [List.head?_cons, Option.some_inj] at hx
    subst hx
    decide
  have hlastc : (['a', 'p', 'i'] ++ '/' :: c).getLast? = c.getLast? := by
    rw [List.getLast?_append_of_ne_nil _ (by simp), getLast?_cons_of_ne_nil _ _ h1]
  have hl : ∀ x, (['a', 'p', 'i'] ++ '/' :: c).getLast? = some x → x ≠ '/' ∧ x ≠ '\\' := by
    intro x hx
    rw [hlastc] at hx
    exact hcch x (mem_of_getLast?_eq c x hx)
  cases t with
  | false =>
    have hp : ((['a', 'p', 'i'] ++ '/' :: c) ++ (if (false : Bool) = true then ['/'] else []))
        = ['a', 'p', 'i'] ++ '/' :: c := by simp
    rw [hp]
    have hH : headIsSlash (['a', 'p', 'i'] ++ '/' :: c) = false := by
      rw [headIsSlash_false_iff, List.head?_append_of_ne_nil _ (by decide)]
      decide
    have hT : lastIsSlash (['a', 'p', 'i'] ++ '/' :: c) = false := by
      rw [lastIsSlash_false_iff, hlastc]
      intro hx
      exact (hcch '/' (mem_of_getLast?_eq c '/' hx)).1 rfl
    have hsegs : splitOnChar '/' (['a', 'p', 'i'] ++ '/' :: c) = [['a', 'p', 'i'], c] := by
      rw [splitOnChar_append_noSep '/' ['a', 'p', 'i'] ('/' :: c) (by decide),
        splitOnChar_cons_sep, hsplitc]
      simp
    have hns : normSegs (!headIsSlash (['a', 'p', 'i'] ++ '/' :: c))
        (splitOnChar '/' (['a', 'p', 'i'] ++ '/' :: c)) = [['a', 'p', 'i'], c] := by
      rw [hH, hsegs]
      simp [normSegs, hpush, hpushApi]
    have hnorm : normalizeL (['a', 'p', 'i'] ++ '/' :: c) = ['a', 'p', 'i'] ++ '/' :: c := by
      unfold normalizeL
      rw [if_neg hbne, hns]
      have hjb : joinSegs [['a', 'p', 'i'], c] = ['a', 'p', 'i'] ++ '/' :: c := rfl
      rw [hjb, if_neg hbne, hH, hT]
      simp
    rw [hnorm]
    have := stripSepsL_decorate _ false false hbne hh hl
    simpa using this
  | true =>
    have hp : ((['a', 'p', 'i'] ++ '/' :: c) ++ (if (true : Bool) = true then ['/'] else []))
        = ['a', 'p', 'i'] ++ '/' :: (c ++ ['/']) := by simp
    rw [hp]
    have hpne : (['a', 'p', 'i'] ++ '/' :: (c ++ ['/'])) ≠ [] := by simp
    have hH : headIsSlash (['a', 'p', 'i'] ++ '/' :: (c ++ ['/'])) = false := by
      rw [headIsSlash_false_iff, List.head?_append_of_ne_nil _ (by decide)]
      decide
    have hT : lastIsSlash (['a', 'p', 'i'] ++ '/' :: (c ++ ['/'])) = true := by
      have hassoc : (['a', 'p', 'i'] ++ '/' :: (c ++ ['/']))
          = ((['a', 'p', 'i'] ++ '/' :: c) ++ ['/']) := by simp
      have hlast2 : (['a', 'p', 'i'] ++ '/' :: (c ++ ['/'])).getLast? = some '/' := by
        rw [hassoc, List.getLast?_append_of_ne_nil _ (by simp)]
        rfl
      unfold lastIsSlash
      rw [hlast2]
      decide
    have hsegs : splitOnChar '/' (['a', 'p', 'i'] ++ '/' :: (c ++ ['/']))
        = [['a', 'p', 'i'], c, []] := by
      rw [splitOnChar_append_noSep '/' ['a', 'p', 'i'] ('/' :: (c ++ ['/'])) (by decide),
        splitOnChar_cons_sep, hsplitc1]
      simp
    have hns : normSegs (!headIsSlash (['a', 'p', 'i'] ++ '/' :: (c ++ ['/'])))
        (splitOnChar '/' (['a', 'p', 'i'] ++ '/' :: (c ++ ['/'])))
        = [['a', 'p', 'i'], c] := by
      rw [hH, hsegs]
      simp [normSegs, stepSeg_nilseg, hpush, hpushApi]
    have hnorm : normalizeL (['a', 'p', 'i'] ++ '/' :: (c ++ ['/']))
        = (['a', 'p', 'i'] ++ '/' :: c) ++ ['/'] := by
      unfold normalizeL
      rw [if_neg hpne, hns]
      have hjb : joinSegs [['a', 'p', 'i'], c] = ['a', 'p', 'i'] ++ '/' :: c := rfl
      rw [hjb, if_neg hbne, hH, hT]
      simp
    rw [hnorm]
    have := stripSepsL_decorate _ false true hbne hh hl
    simpa using this

theorem regKey_eq (c : Seg) (lead trail : Bool) (h1 : c ≠ []) (h2 : c ≠ ['.'])
    (h3 : c ≠ dotdot) (h4 : '/' ∉ c) (h5 : '\\' ∉ c) :
    stripSepsL (normalizeL (joinL [['a', 'p', 'i'],
      (if lead then ['/'] else []) ++ c ++ (if trail then ['/'] else [])]))
      = 'a' :: 'p' :: 'i' :: '/' :: c := by
  have hvne : ((if lead then ['/'] else []) ++ c ++ (if trail then ['/'] else [])) ≠ [] := by
    cases lead <;> cases trail <;> simp [h1]
  set v := (if lead then ['/'] else []) ++ c ++ (if trail then ['/'] else []) with hv
  have hfilter : ([['a', 'p', 'i'], v].filter (fun l => l ≠ [])) = [['a', 'p', 'i'], v] := by
    simp [hvne]
  have hjoin : joinL [['a', 'p', 'i'], v] = normalizeL (['a', 'p', 'i'] ++ '/' :: v) := by
    unfold joinL
    rw [hfilter]
    rfl
  rw [hjoin]
  have hpne : (['a', 'p', 'i'] ++ '/' :: v) ≠ [] := by simp
  have hH : headIsSlash (['a', 'p', 'i'] ++ '/' :: v) = false := by
    rw [headIsSlash_false_iff, List.head?_append_of_ne_nil _ (by decide)]
    decide
  have hsegs : splitOnChar '/' (['a', 'p', 'i'] ++ '/' :: v)
      = ['a', 'p', 'i'] :: splitOnChar '/' v := by
    rw [splitOnChar_append_noSep '/' ['a', 'p', 'i'] ('/' :: v) (by decide),
      splitOnChar_cons_sep]
    simp
  have hns : normSegs (!headIsSlash (['a', 'p', 'i'] ++ '/' :: v))
      (splitOnChar '/' (['a', 'p', 'i'] ++ '/' :: v)) = [['a', 'p', 'i'], c] := by
    rw [hH, hsegs, hv]
    exact normSegs_api_core c lead trail h1 h2 h3 h4
  have hbody : joinSegs [['a', 'p', 'i'], c] = ['a', 'p', 'i'] ++ '/' :: c := rfl
  have hbne : joinSegs [['a', 'p', 'i'], c] ≠ [] := by
    rw [hbody]; simp
  have hnorm : normalizeL (['a', 'p', 'i'] ++ '/' :: v)
      = (['a', 'p', 'i'] ++ '/' :: c)
        ++ (if lastIsSlash (['a', 'p', 'i'] ++ '/' :: v) then ['/'] else []) := by
    unfold normalizeL
    rw [if_neg hpne, hns, if_neg hbne, hbody, hH]
    simp
  rw [hnorm]
  exact strip_normalize_api_body c (lastIsSlash (['a', 'p', 'i'] ++ '/' :: v)) h1 h2 h3 h4 h5

theorem requestKey_eq (c : Seg) (h1 : c ≠ []) (h2 : c ≠ ['.']) (h3 : c ≠ dotdot)
    (h4 : '/' ∉ c) (h5 : '\\' ∉ c) :
    stripSepsL (normalizeL ('/' :: 'a' :: 'p' :: 'i' :: '/' :: c))
      = 'a' :: 'p' :: 'i' :: '/' :: c := by
  have hcch : ∀ x ∈ c, x ≠ '/' ∧ x ≠ '\\' :=
    fun x hx => ⟨fun he => h4 (he ▸ hx), fun he => h5 (he ▸ hx)⟩
  have hpne : ('/' :: 'a' :: 'p' :: 'i' :: '/' :: c) ≠ [] := by simp
  have hH : headIsSlash ('/' :: 'a' :: 'p' :: 'i' :: '/' :: c) = true := by
    simp [headIsSlash]
  have hsegs : splitOnChar '/' ('/' :: 'a' :: 'p' :: 'i' :: '/' :: c)
      = [[], ['a', 'p', 'i'], c] := by
    have hc : splitOnChar '/' c = [c] :=
      splitOnChar_noSep '/' c (fun x hx he => h4 (he ▸ hx))
    have h2' : ('a' :: 'p' :: 'i' :: '/' :: c) = ['a', 'p', 'i'] ++ '/' :: c := rfl
    rw [splitOnChar_cons_sep, h2',
      splitOnChar_append_noSep '/' ['a', 'p', 'i'] ('/' :: c) (by decide),
      splitOnChar_cons_sep, hc]
    simp
  have hns : normSegs (!headIsSlash ('/' :: 'a' :: 'p' :: 'i' :: '/' :: c))
      (splitOnChar '/' ('/' :: 'a' :: 'p' :: 'i' :: '/' :: c)) = [['a', 'p', 'i'], c] := by
    rw [hH, hsegs]
    have hpushApi : ∀ stack, stepSeg false stack ['a', 'p', 'i'] = ['a', 'p', 'i'] :: stack :=
      fun stack => stepSeg_push false stack ['a', 'p', 'i'] (by decide) (by decide) (by decide)
    have hpush : ∀ stack, stepSeg false stack c = c :: stack :=
      fun stack => stepSeg_push false stack c h1 h2 h3
    simp [normSegs, stepSeg_nilseg, hpush, hpushApi]
  have hbody : joinSegs [['a', 'p', 'i'], c] = ['a', 'p', 'i'] ++ '/' :: c := rfl
  have hbne : joinSegs [['a', 'p', 'i'], c] ≠ [] := by
    rw [hbody]; simp
  have hT : lastIsSlash ('/' :: 'a' :: 'p' :: 'i' :: '/' :: c) = false := by
    rw [lastIsSlash_false_iff]
    have h2' : ('/' :: 'a' :: 'p' :: 'i' :: '/' :: c) = ['/', 'a', 'p', 'i'] ++ '/' :: c := rfl
    rw [h2', List.getLast?_append_of_ne_nil _ (by simp), getLast?_cons_of_ne_nil _ _ h1]
    intro hx
    exact (hcch '/' (mem_of_getLast?_eq c '/' hx)).1 rfl
  have hnorm : normalizeL ('/' :: 'a' :: 'p' :: 'i' :: '/' :: c)
      = '/' :: (joinSegs [['a', 'p', 'i'], c]) := by
    unfold normalizeL
    rw [if_neg hpne, hns, if_neg hbne, hH, hT]
    simp
  rw [hnorm]
  unfold stripSepsL
  rw [stripSep1_cons_slash]
  have hlastc : (joinSegs [['a', 'p', 'i'], c]).getLast? = c.getLast? := by
    rw [hbody, List.getLast?_append_of_ne_nil _ (by simp),
      getLast?_cons_of_ne_nil _ _ h1]
  have hkeep : stripSep1 (joinSegs [['a', 'p', 'i'], c]).reverse
      = (joinSegs [['a', 'p', 'i'], c]).reverse := by
    refine stripSep1_keep _ (fun x hx => ?_)
    rw [List.head?_reverse, hlastc] at hx
    exact hcch x (mem_of_getLast?_eq c x hx)
  rw [hkeep, List.reverse_reverse, hbody]
  rfl

/-! ### Pathname extraction lemmas -/

theorem takeWhile_append_all {α : Type} (q : α → Bool) (l₁ l₂ : List α)
    (h : ∀ c ∈ l₁, q c = true) : (l₁ ++ l₂).takeWhile q = l₁ ++ l₂.takeWhile q := by
  induction l₁ with
  | nil => simp
  | cons a l ih =>
    rw [List.cons_append]
    simp only [List.takeWhile_cons, h a (by simp), if_pos rfl,
      ih (fun c hc => h c (by simp [hc]))]
    simp

/-- A string that is either empty or starts with `?` or `#`: the query or
fragment part of a request target. -/
def QuerySuffix (s : String) : Prop :=
  s.data = [] ∨ s.data.head? = some '?' ∨ s.data.head? = some '#'

theorem urlPathname_append (p s : String) (hp : ∀ c ∈ p.data, c ≠ '?' ∧ c ≠ '#')
    (hs : QuerySuffix s) : urlPathname (p ++ s) = p := by
  unfold urlPathname
  rw [String.data_append]
  have hq : ∀ c ∈ p.data, (fun c => decide (c ≠ '?' ∧ c ≠ '#')) c = true := by
    intro c hc
    simpa using hp c hc
  rw [takeWhile_append_all _ p.data s.data hq]
  have hs0 : s.data.takeWhile (fun c => decide (c ≠ '?' ∧ c ≠ '#')) = [] := by
    rcases hs with h0 | h0 | h0
    · rw [h0]; rfl
    · cases hd : s.data with
      | nil => rfl
      | cons c t =>
        rw [hd] at h0
        simp only [List.head?_cons, Option.some_inj] at h0
        subst h0
        rw [List.takeWhile_cons]
        simp
    · cases hd : s.data with
      | nil => rfl
      | cons c t =>
        rw [hd] at h0
        simp only [List.head?_cons, Option.some_inj] at h0
        subst h0
        rw [List.takeWhile_cons]
        simp
  rw [hs0, List.append_nil]

/-! ## Claim theorems -/

/-- Claim C1. The claim (and the repository README's "Dynamic Pages"
section) says a missing extensionless path yields status 200 with the
`index.html` body when the dynamic-page fallback is enabled, which is the
default. The code has no `dynamicPages` option and no `index.html`
fallback at all: at the README's own example input `/pages/cities/tokyo`
(unregistered, extensionless, no such file), the dispatcher answers 404
with the `404.html` body. This theorem records the code's actual behavior
at that failing input. -/
theorem c1_missing_extensionless_path_gets_404 :
    requestListener "public" ([] : RouteTable Unit) ()
      [("public/index.html", .file "<index page>"), ("public/404.html", .file "<404 page>")]
      ⟨"/pages/cities/tokyo", "GET"⟩
      = ⟨404, some (.str "text/html"), "<404 page>"⟩ := by
  decide

/-- Claim C2. For every request dispatched to a registered route, whatever
the HTTP method: a falsy handler result (`null`/`undefined` or the empty
string) yields status 400 with exactly the JSON body
`JSON.stringify({ error: '400 Bad Request' })` (no space after the colon),
and a non-empty string result yields status 200 with that string as the
body. -/
theorem c2_api_result_dispatch (G : Type) (staticPath : String) (routes : RouteTable G)
    (g : G) (fs : Fs) (req : Request) (h : Handler G)
    (hroute : mapGet routes (normalizePath (getPathnameFromRequest req)) = some h) :
    (jsFalsy (h req g) = true →
      requestListener staticPath routes g fs req = ⟨400, none, badRequestBody⟩) ∧
    (∀ s, h req g = some s → s ≠ "" →
      requestListener staticPath routes g fs req = ⟨200, none, s⟩) := by
  constructor
  · intro hf
    simp [requestListener, hroute, hf]
  · intro s hs hne
    simp [requestListener, hroute, hs, jsFalsy, hne]

/-- Witness for C2: a route registered at `api/book` whose handler answers
`null` to a `POST` produces the fixed 400 response. -/
theorem c2_api_result_dispatch_witness :
    requestListener "public" [("api/book", (fun _ _ => none : Handler Unit))] () []
      ⟨"/api/book", "POST"⟩ = ⟨400, none, badRequestBody⟩ :=
  (c2_api_result_dispatch Unit "public" [("api/book", fun _ _ => none)] () []
    ⟨"/api/book", "POST"⟩ (fun _ _ => none) rfl).1 rfl

/-- Counterexample to Claim C3 as stated: the normalizer is not idempotent
on every path string. On `"/"`, `path.normalize` gives `"/"`, the regex
strips it to `""`, but normalizing `""` gives `"."`. -/
theorem c3_counterexample : normalizePath (normalizePath "/") ≠ normalizePath "/" := by
  decide

/-- Claim C3, amended. Idempotence of `#normalizePath` holds for every path
that contains no backslash and does not normalize to the empty string (the
counterexample `"/"` normalizes to `""`, and a backslash surviving at the
edge of the output is stripped again on the second pass). The routing
consequence holds as stated: a route whose core is one ordinary segment
`c` (non-empty, not `.` or `..`, no separators) may be registered with any
combination of leading/trailing separators, and a request with pathname
`/api/c` always reaches its handler. -/
theorem c3_normalize_idempotent_amended :
    (∀ p : String, '\\' ∉ p.data → normalizePath p ≠ "" →
      normalizePath (normalizePath p) = normalizePath p) ∧
    (∀ (G : Type) (routes : RouteTable G) (h : Handler G) (c : String) (lead trail : Bool),
      c.data ≠ [] → c.data ≠ ['.'] → c.data ≠ ['.', '.'] →
      '/' ∉ c.data → '\\' ∉ c.data →
      mapGet (addRoute routes
          ((if lead then "/" else "") ++ c ++ (if trail then "/" else "")) h)
        (normalizePath ("/api/" ++ c)) = some h) := by
  constructor
  · intro p hbs hne
    have hne' : stripSepsL (normalizeL p.data) ≠ [] := fun h =>
      hne (congrArg String.mk h)
    exact congrArg String.mk (normalizeL_strip_idem p.data hbs hne')
  · intro G routes h c lead trail h1 h2 h3 h4 h5
    have hvdata : ((if lead then "/" else "") ++ c ++ (if trail then "/" else "")).data
        = (if lead then ['/'] else []) ++ c.data ++ (if trail then ['/'] else []) := by
      cases lead <;> cases trail <;> simp [String.data_append]
    have hreg : normalizePath (joinPaths ["api",
        (if lead then "/" else "") ++ c ++ (if trail then "/" else "")])
        = ⟨'a' :: 'p' :: 'i' :: '/' :: c.data⟩ := by
      show (⟨stripSepsL (normalizeL (joinL [['a', 'p', 'i'],
        ((if lead then "/" else "") ++ c ++ (if trail then "/" else "")).data]))⟩ : String) = _
      rw [hvdata]
      exact congrArg String.mk (regKey_eq c.data lead trail h1 h2 h3 h4 h5)
    have hreq : normalizePath ("/api/" ++ c) = ⟨'a' :: 'p' :: 'i' :: '/' :: c.data⟩ := by
      have hdata : ("/api/" ++ c).data = '/' :: 'a' :: 'p' :: 'i' :: '/' :: c.data := by
        rw [String.data_append]
        rfl
      show (⟨stripSepsL (normalizeL ("/api/" ++ c).data)⟩ : String) = _
      rw [hdata]
      exact congrArg String.mk (requestKey_eq c.data h1 h2 h3 h4 h5)
    unfold addRoute
    rw [hreg, hreq]
    exact mapGet_mapSet_self routes _ h

/-- Witness for the amended C3: a concrete non-degenerate path is a fixed
point, and a route registered as `/book/` is reached by `/api/book`. -/
theorem c3_normalize_idempotent_amended_witness :
    normalizePath (normalizePath "a//b/") = normalizePath "a//b/" ∧
    mapGet (addRoute ([] : RouteTable Unit) "/book/" (fun _ _ => some "x"))
      (normalizePath "/api/book") = some (fun _ _ => some "x") := by
  constructor
  · exact c3_normalize_idempotent_amended.1 "a//b/" (by decide) (by decide)
  · exact c3_normalize_idempotent_amended.2 Unit [] (fun _ _ => some "x") "book" true true
      (by decide) (by decide) (by decide) (by decide) (by decide)

/-- Claim C5. `addRoute(path, handler)` stores the handler under the key
`#normalizePath(path.join('api', path))`; that normalized key is unique in
the table, so a second registration of the same path silently overwrites
the first (last-write-wins), the route table afterwards being identical to
one in which only the second registration happened — hence every
subsequent request is served by the most recent handler. -/
theorem c5_addRoute_last_write_wins (G : Type) (routes : RouteTable G) (p : String)
    (h h₁ h₂ : Handler G) (staticPath : String) (g : G) (fs : Fs) (req : Request) :
    mapGet (addRoute routes p h) (normalizePath (joinPaths ["api", p])) = some h ∧
    addRoute (addRoute routes p h₁) p h₂ = addRoute routes p h₂ ∧
    requestListener staticPath (addRoute (addRoute routes p h₁) p h₂) g fs req
      = requestListener staticPath (addRoute routes p h₂) g fs req := by
  refine ⟨mapGet_mapSet_self routes _ h, mapSet_mapSet_self routes _ h₁ h₂, ?_⟩
  rw [show addRoute (addRoute routes p h₁) p h₂ = addRoute routes p h₂ from
    mapSet_mapSet_self routes _ h₁ h₂]

/-- Counterexample to Claim C9 as stated: when the piping read stream
terminates with an error instead of `end`, the streaming file handle is
never closed — `createReadStream({ autoClose: false })` suppresses Node's
close-on-error, and the dispatcher only registers a close on the `end`
event. -/
theorem c9_counterexample : allHandlesClosed (requestFdTrace true .errored) = false := by
  decide

/-- Claim C9, amended. The existence-probe handle is always closed (the
`finally` block runs on success and failure alike), and the streaming
handle is closed whenever the stream terminates normally with `end`; only
a stream that errors mid-transfer leaks its handle. -/
theorem c9_handles_closed_amended (probeOpenSucceeded : Bool) (t : StreamTermination) :
    probeBalanced (requestFdTrace probeOpenSucceeded t) = true ∧
    allHandlesClosed (requestFdTrace probeOpenSucceeded .ended) = true := by
  cases probeOpenSucceeded <;> cases t <;> exact ⟨by decide, by decide⟩

/-- Claim C4. For every non-API request (route lookup misses), the
file-server branch picks `staticPath/urlPath/index.html` when the pathname
ends with `/` and `staticPath/urlPath` verbatim otherwise; when that
candidate opens, the resolution is status 200 streaming the candidate, and
when it does not, status 404 streaming `staticPath/404.html` — and the
response the dispatcher writes carries exactly that status and the bytes of
that stream path. -/
theorem c4_static_resolver (G : Type) (staticPath : String) (routes : RouteTable G)
    (g : G) (fs : Fs) (req : Request)
    (hmiss : mapGet routes (normalizePath (getPathnameFromRequest req)) = none)
    (cand : String)
    (hcand : cand = if lastIsSlash (getPathnameFromRequest req).data
        then joinPaths [staticPath, getPathnameFromRequest req, "index.html"]
        else joinPaths [staticPath, getPathnameFromRequest req]) :
    (openOk fs cand = true →
      staticStage staticPath fs (getPathnameFromRequest req)
        = ⟨200, cand, mimeResolve (fileExtensionOf cand)⟩ ∧
      requestListener staticPath routes g fs req
        = ⟨200, some (mimeResolve (fileExtensionOf cand)), readContent fs cand⟩) ∧
    (openOk fs cand = false →
      staticStage staticPath fs (getPathnameFromRequest req)
        = ⟨404, joinPaths [staticPath, "404.html"],
            mimeResolve (fileExtensionOf (joinPaths [staticPath, "404.html"]))⟩ ∧
      requestListener staticPath routes g fs req
        = ⟨404, some (mimeResolve (fileExtensionOf (joinPaths [staticPath, "404.html"]))),
            readContent fs (joinPaths [staticPath, "404.html"])⟩) := by
  subst hcand
  constructor
  · intro hopen
    constructor
    · simp [staticStage, hopen]
    · simp [requestListener, hmiss, staticStage, hopen]
  · intro hopen
    constructor
    · simp [staticStage, hopen]
    · simp [requestListener, hmiss, staticStage, hopen]

/-- Witness for C4: an existing plain file is streamed back with 200, at a
concrete input discharging every hypothesis. -/
theorem c4_static_resolver_witness :
    requestListener "public" ([] : RouteTable Unit) ()
      [("public/notes.txt", .file "hello")] ⟨"/notes.txt", "GET"⟩
      = ⟨200, some (.str "application/octet-stream"), "hello"⟩ :=
  ((c4_static_resolver Unit "public" [] () [("public/notes.txt", .file "hello")]
    ⟨"/notes.txt", "GET"⟩ rfl "public/notes.txt" (by decide)).1 (by decide)).2

/-- Counterexample to Claim C6 as stated: the extension `constructor`
(already lower-case, so the `.toLowerCase()` of line 303 leaves it intact)
misses the fixed table, yet the resolver does not return the `default`
entry — the bracket access finds the inherited truthy
`Object.prototype.constructor`, which short-circuits the `||` fallback. -/
theorem c6_counterexample :
    mapGet MIME_TYPES (toLowerStr "constructor") = none ∧
    mimeResolve (toLowerStr "constructor") ≠ .str "application/octet-stream" := by
  decide

/-- Claim C6, amended. The resolver is still total (no input raises in the
resolver itself): a lower-cased extension found in the fixed table returns
its entry, and a miss returns the `default` entry
`application/octet-stream` — unless the lower-cased extension names an
`Object.prototype` member (`constructor` or `__proto__` are the lower-case
ones), in which case the inherited truthy non-string value is what reaches
`setHeader` instead of the default. The `.svg` scenario holds as claimed:
an existing `a/b/c.svg` is served with status 200, `Content-type:
image/svg+xml`, and the file's bytes. -/
theorem c6_mime_resolver_amended (e : String) (bytes : String) :
    (∀ m, mapGet MIME_TYPES (toLowerStr e) = some m →
      mimeResolve (toLowerStr e) = .str m) ∧
    (mapGet MIME_TYPES (toLowerStr e) = none →
      objectPrototypeMember (toLowerStr e) = false →
      mimeResolve (toLowerStr e) = .str "application/octet-stream") ∧
    (mapGet MIME_TYPES (toLowerStr e) = none →
      objectPrototypeMember (toLowerStr e) = true →
      mimeResolve (toLowerStr e) = .inherited (toLowerStr e)) ∧
    requestListener "public" ([] : RouteTable Unit) ()
      [("public/a/b/c.svg", .file bytes)] ⟨"/a/b/c.svg", "GET"⟩
      = ⟨200, some (.str "image/svg+xml"), bytes⟩ := by
  refine ⟨?_, ?_, ?_, ?_⟩
  · intro m hm
    simp [mimeResolve, hm]
  · intro hm hp
    simp [mimeResolve, hm, hp]
  · intro hm hp
    simp [mimeResolve, hm, hp]
  · rfl

/-- Witness for the amended C6: an unknown extension that is no prototype
member falls back to the default entry. -/
theorem c6_mime_resolver_amended_witness :
    mimeResolve (toLowerStr "XYZ") = .str "application/octet-stream" :=
  (c6_mime_resolver_amended "XYZ" "b").2.1 (by decide) (by decide)

/-- Claim C7. During the existence probe, an `fs.open` failure with any
error code (for example `EACCES`) is handled exactly like a missing file:
the response is identical to the one for a filesystem in which the file
simply does not exist, and it is a 404. -/
theorem c7_probe_error_like_not_found (G : Type) (staticPath : String)
    (routes : RouteTable G) (g : G) (req : Request) (code : String) (rest : Fs)
    (hmiss : mapGet routes (normalizePath (getPathnameFromRequest req)) = none)
    (filePath : String)
    (hfp : filePath = if lastIsSlash (getPathnameFromRequest req).data
        then joinPaths [staticPath, getPathnameFromRequest req, "index.html"]
        else joinPaths [staticPath, getPathnameFromRequest req])
    (hrest : mapGet rest filePath = none) :
    requestListener staticPath routes g ((filePath, .denied code) :: rest) req
      = requestListener staticPath routes g rest req ∧
    (requestListener staticPath routes g ((filePath, .denied code) :: rest) req).statusCode
      = 404 := by
  have hopen1 : openOk ((filePath, .denied code) :: rest) filePath = false := by
    simp [openOk, mapGet]
  have hopen2 : openOk rest filePath = false := by
    simp [openOk, hrest]
  have hrc : readContent ((filePath, .denied code) :: rest)
      (joinPaths [staticPath, "404.html"])
      = readContent rest (joinPaths [staticPath, "404.html"]) := by
    by_cases hpq : filePath = joinPaths [staticPath, "404.html"]
    · subst hpq
      simp [readContent, mapGet, hrest]
    · simp [readContent, mapGet, fun h => hpq h]
  constructor
  · simp only [requestListener, hmiss, staticStage]
    rw [← hfp, hopen1, hopen2]
    simp [hrc]
  · simp only [requestListener, hmiss, staticStage]
    rw [← hfp, hopen1]
    simp

/-- Witness for C7: a permission-denied file produces the same response as
an absent file, at a concrete input discharging every hypothesis. -/
theorem c7_probe_error_like_not_found_witness :
    requestListener "public" ([] : RouteTable Unit) ()
      [("public/secret.txt", .denied "EACCES"), ("public/404.html", .file "gone")]
      ⟨"/secret.txt", "GET"⟩
      = requestListener "public" [] () [("public/404.html", .file "gone")]
          ⟨"/secret.txt", "GET"⟩ :=
  (c7_probe_error_like_not_found Unit "public" [] () ⟨"/secret.txt", "GET"⟩ "EACCES"
    [("public/404.html", .file "gone")] rfl "public/secret.txt" (by decide) (by decide)).1

/-- Claim C8. The 404-page setup in `start()`: when `staticPath/404.html`
already opens, the filesystem is left unchanged; when it does not, the
default minimal "404 Not Found" page is written there, and afterwards any
non-API request whose candidate file does not exist is answered with
status 404 and exactly that default page as the body. -/
theorem c8_start_writes_default_404 (G : Type) (staticPath : String)
    (routes : RouteTable G) (g : G) (fs : Fs) (req : Request) :
    (openOk fs (joinPaths [staticPath, "404.html"]) = true →
      ensure404 staticPath fs = fs) ∧
    (openOk fs (joinPaths [staticPath, "404.html"]) = false →
      ensure404 staticPath fs
        = mapSet fs (joinPaths [staticPath, "404.html"]) (.file default404Page) ∧
      (∀ cand,
        mapGet routes (normalizePath (getPathnameFromRequest req)) = none →
        cand = (if lastIsSlash (getPathnameFromRequest req).data
          then joinPaths [staticPath, getPathnameFromRequest req, "index.html"]
          else joinPaths [staticPath, getPathnameFromRequest req]) →
        openOk (ensure404 staticPath fs) cand = false →
        (requestListener staticPath routes g (ensure404 staticPath fs) req).statusCode
          = 404 ∧
        (requestListener staticPath routes g (ensure404 staticPath fs) req).body
          = default404Page)) := by
  constructor
  · intro h
    simp [ensure404, h]
  · intro h
    have hfs' : ensure404 staticPath fs
        = mapSet fs (joinPaths [staticPath, "404.html"]) (.file default404Page) := by
      simp [ensure404, h]
    refine ⟨hfs', ?_⟩
    intro cand hmiss hcand hopen
    subst hcand
    rw [hfs'] at hopen ⊢
    constructor
    · simp [requestListener, hmiss, staticStage, hopen]
    · simp [requestListener, hmiss, staticStage, hopen, readContent, mapGet_mapSet_self]

/-- Witness for C8: starting with no files at all, the default page is
written and a request for a missing `.pdf` gets it back with a 404. -/
theorem c8_start_writes_default_404_witness :
    (requestListener "public" ([] : RouteTable Unit) () (ensure404 "public" [])
      ⟨"/missing.pdf", "GET"⟩).statusCode = 404 ∧
    (requestListener "public" ([] : RouteTable Unit) () (ensure404 "public" [])
      ⟨"/missing.pdf", "GET"⟩).body = default404Page :=
  ((c8_start_writes_default_404 Unit "public" [] () [] ⟨"/missing.pdf", "GET"⟩).2
    (by decide)).2 "public/missing.pdf" rfl (by decide) (by decide)

/-- Claim C10. Dispatch depends only on the pathname: appending any query
or fragment suffix to a query-free pathname changes neither the route
handler selected, nor the static resolution (status, stream path, MIME
type); and for non-API requests the entire response is identical across
such suffixes, whatever the methods. -/
theorem c10_dispatch_pathname_only (G : Type) (staticPath : String)
    (routes : RouteTable G) (g : G) (fs : Fs) (p s₁ s₂ m₁ m₂ : String)
    (hp : ∀ c ∈ p.data, c ≠ '?' ∧ c ≠ '#')
    (hs₁ : QuerySuffix s₁) (hs₂ : QuerySuffix s₂) :
    routeLookup routes (p ++ s₁) = routeLookup routes (p ++ s₂) ∧
    staticStage staticPath fs (urlPathname (p ++ s₁))
      = staticStage staticPath fs (urlPathname (p ++ s₂)) ∧
    (mapGet routes (normalizePath (urlPathname (p ++ s₁))) = none →
      requestListener staticPath routes g fs ⟨p ++ s₁, m₁⟩
        = requestListener staticPath routes g fs ⟨p ++ s₂, m₂⟩) := by
  have h1 := urlPathname_append p s₁ hp hs₁
  have h2 := urlPathname_append p s₂ hp hs₂
  refine ⟨?_, ?_, ?_⟩
  · unfold routeLookup
    rw [h1, h2]
  · rw [h1, h2]
  · intro hmiss
    rw [h1] at hmiss
    simp [requestListener, getPathnameFromRequest, h1, h2, hmiss]

/-- Witness for C10: the same missing page requested with a query and with
a fragment produces identical responses. -/
theorem c10_dispatch_pathname_only_witness :
    requestListener "public" ([] : RouteTable Unit) () []
      ⟨"/x" ++ "?a=1", "GET"⟩
      = requestListener "public" [] () [] ⟨"/x" ++ "#frag", "POST"⟩ :=
  (c10_dispatch_pathname_only Unit "public" [] () [] "/x" "?a=1" "#frag" "GET" "POST"
    (by decide) (Or.inr (Or.inl rfl)) (Or.inr (Or.inr rfl))).2.2 rfl

end SimpleServerSpec
